import Mathlib

/-!
Verification of the hashassin rainbow-table core (`src/core/src/rainbow.rs`).

Shallow embedding conventions:
* Rust byte buffers (`Vec<u8>`, `&[u8]`, `String` used as bytes) are `List Nat`;
  in a real run every element is `< 256`, but the parsing functions only move
  bytes around, so no global bound is imposed.
* Machine integers are `Nat` with explicit `% 2^w` where the Rust code wraps
  (`u128` wrapping ops, `as u32` / `as u8` / `as usize` casts).
* Fallible Rust code (`Result<_, RainbowError>`) becomes `Except Err _`.
  Rust panics (out-of-bounds index, `% 0`, `chunks(0)`) are modelled by the
  dedicated `Err.crash` constructor: a crash aborts the run but is *not* a
  `RainbowError` value.
* The per-algorithm digest provider (the `md5`/`sha2`/`sha3` crates) is an
  external collaborator; chain building and cracking are parametrised by a
  total digest function `H : Bytes → Bytes`.  A concrete MD5 (RFC 1321)
  is provided below so that spec-level scenarios about the `md5` algorithm can
  be evaluated on concrete inputs.
-/

namespace Hashassin

set_option maxRecDepth 100000

/-- Byte strings (`Vec<u8>` / `&[u8]` / UTF-8 contents of a `String`). -/
abbrev Bytes := List Nat

/-- `2^128`, the modulus of Rust `u128` arithmetic. -/
def M128 : Nat := 2 ^ 128

/-- Error outcomes of the rainbow-table operations.  The first eleven mirror
`RainbowError` in `rainbow.rs` (string payloads dropped); `crash` models a Rust
panic (out-of-bounds slice/index, `% 0`, `chunks(0)`), which aborts the process
without producing a `RainbowError`. -/
inductive Err where
  | emptyInput
  | varyingLengths
  | invalidMagic
  | invalidHeader
  | invalidAlgorithm
  | invalidChainData
  | algorithmMismatch
  | passwordLengthMismatch
  | noPasswordsFound
  | unicodeError
  | numericError
  | crash
  deriving DecidableEq, Repr

/-- The `Algorithm` enum of `hashing.rs`. -/
inductive Algorithm where
  | md5
  | sha256
  | sha3_512
  | scrypt
  deriving DecidableEq, Repr

deriving instance DecidableEq for Except

/-- `AlgorithmExt::hash_size` in `rainbow.rs`. -/
def Algorithm.hashSize : Algorithm → Nat
  | .md5 => 16
  | .sha256 => 32
  | .sha3_512 => 64
  | .scrypt => 91

/-- Modelled from the spec: the `Display` impl for `Algorithm` is not under
`src/` (only its callers `algorithm.to_string()` are); per spec §3 each
algorithm "has a canonical lowercase name", the same names `AlgorithmExt::from_str`
accepts.  UTF-8 bytes of "md5", "sha256", "sha3-512", "scrypt". -/
def Algorithm.toName : Algorithm → Bytes
  | .md5 => [109, 100, 53]
  | .sha256 => [115, 104, 97, 50, 53, 54]
  | .sha3_512 => [115, 104, 97, 51, 45, 53, 49, 50]
  | .scrypt => [115, 99, 114, 121, 112, 116]

/-- `AlgorithmExt::from_str` in `rainbow.rs` (on the UTF-8 bytes of the name). -/
def Algorithm.fromName (s : Bytes) : Option Algorithm :=
  if s = [109, 100, 53] then some .md5
  else if s = [115, 104, 97, 50, 53, 54] then some .sha256
  else if s = [115, 104, 97, 51, 45, 53, 49, 50] then some .sha3_512
  else if s = [115, 99, 114, 121, 112, 116] then some .scrypt
  else none

/-- `MAGIC_WORD = b"rainbowtable"` (12 bytes). -/
def MAGIC : Bytes := [114, 97, 105, 110, 98, 111, 119, 116, 97, 98, 108, 101]

/-- Big-endian bytes of `v` in width `w` (`u128::to_be_bytes` is `beBytes 16`). -/
def beBytes : Nat → Nat → Bytes
  | 0, _ => []
  | w + 1, v => beBytes w (v / 256) ++ [v % 256]

/-- Big-endian value of a byte string (`u128::from_be_bytes`). -/
def beToNat (bs : Bytes) : Nat := bs.foldl (fun a b => a * 256 + b) 0

/-- Fuel-driven chunking worker (structural recursion so that the kernel can
evaluate it; the fuel is always instantiated with the buffer length, which
bounds the number of chunks whenever `0 < sz`). -/
def chunksAux (sz : Nat) : Nat → Bytes → List Bytes
  | 0, _ => []
  | fuel + 1, b =>
    if sz = 0 ∨ b.length < sz then []
    else (b.take sz) :: chunksAux sz fuel (b.drop sz)

/-- The complete leading `sz`-sized chunks of `b`: what a Rust
`b.chunks(sz)` loop that `break`s at the first short chunk visits.
(`sz = 0` is never reached here; callers model the `chunks(0)` panic.) -/
def completeChunks (sz : Nat) (b : Bytes) : List Bytes :=
  chunksAux sz b.length b

/-- Is a continuation byte (`0x80..=0xBF`)? -/
def utf8Cont (b : Nat) : Bool := 128 ≤ b && b ≤ 191

/-- UTF-8 validity of a byte string, as checked by Rust's
`std::str::from_utf8` / `String::from_utf8`. -/
def validUtf8 : Bytes → Bool
  | [] => true
  | b :: r =>
    if b ≤ 127 then validUtf8 r
    else if 194 ≤ b && b ≤ 223 then
      match r with
      | c1 :: r' => utf8Cont c1 && validUtf8 r'
      | [] => false
    else if b = 224 then
      match r with
      | c1 :: c2 :: r' => (160 ≤ c1 && c1 ≤ 191) && utf8Cont c2 && validUtf8 r'
      | _ => false
    else if (225 ≤ b && b ≤ 236) || (238 ≤ b && b ≤ 239) then
      match r with
      | c1 :: c2 :: r' => utf8Cont c1 && utf8Cont c2 && validUtf8 r'
      | _ => false
    else if b = 237 then
      match r with
      | c1 :: c2 :: r' => (128 ≤ c1 && c1 ≤ 159) && utf8Cont c2 && validUtf8 r'
      | _ => false
    else if b = 240 then
      match r with
      | c1 :: c2 :: c3 :: r' =>
        (144 ≤ c1 && c1 ≤ 191) && utf8Cont c2 && utf8Cont c3 && validUtf8 r'
      | _ => false
    else if 241 ≤ b && b ≤ 243 then
      match r with
      | c1 :: c2 :: c3 :: r' => utf8Cont c1 && utf8Cont c2 && utf8Cont c3 && validUtf8 r'
      | _ => false
    else if b = 244 then
      match r with
      | c1 :: c2 :: c3 :: r' =>
        (128 ≤ c1 && c1 ≤ 143) && utf8Cont c2 && utf8Cont c3 && validUtf8 r'
      | _ => false
    else false

/-! ### The end→start index (`HashMap<Vec<u8>, Vec<u8>>`)

Modelled extensionally as an association list: `hmInsert` overwrites the
previous binding of the key, `hmGet` finds the current binding. -/

/-- The end→start index. -/
abbrev EndMap := List (Bytes × Bytes)

/-- `HashMap::insert k v`: the new binding shadows (removes) any previous one. -/
def hmInsert (m : EndMap) (k v : Bytes) : EndMap :=
  (k, v) :: m.filter (fun p => p.1 ≠ k)

/-- `HashMap::get k`. -/
def hmGet (m : EndMap) (k : Bytes) : Option Bytes :=
  (m.find? (fun p => p.1 = k)).map (·.2)

/-- Fold a decoded `(end, start)` record list into the index, in scan order
(the `end_map.insert(end, start)` loop of `parse_rainbow`). -/
def buildEndMap (recs : List (Bytes × Bytes)) : EndMap :=
  recs.foldl (fun m r => hmInsert m r.1 r.2) []

/-! ### The reduction function (`reduce` in `rainbow.rs`) -/

/-- One byte of the cyclic digest iterator `hash.iter().cycle()` at position
`k`; an empty digest yields `0` via `unwrap_or(&0)`. -/
def cycByte (h : Bytes) (k : Nat) : Nat :=
  if h = [] then 0 else h.getD (k % h.length) 0

/-- One `code_point.wrapping_shl(8).wrapping_add(byte)` step on `u128`. -/
def accStep (a b : Nat) : Nat := (a * 256 % M128 + b) % M128

/-- The `u128` accumulator for output character `k`: starts at `offset` and
consumes the 4 cyclic digest bytes at positions `4k .. 4k+3`. -/
def reduceAcc (h : Bytes) (o k : Nat) : Nat :=
  accStep (accStep (accStep (accStep o (cycByte h (4 * k)))
    (cycByte h (4 * k + 1))) (cycByte h (4 * k + 2))) (cycByte h (4 * k + 3))

/-- The produced code point for character `k`:
`offset + (code_point % charset_size)` on `u128` (release-mode wrap-around).
Meaningful only for `s ≠ 0`; `reduce` models the `% 0` panic separately. -/
def reduceCP (h : Bytes) (s o k : Nat) : Nat :=
  (o + reduceAcc h o k % s) % M128

/-- `char::from_u32` succeeds: not a surrogate and `≤ 0x10FFFF`. -/
def validScalar (cp : Nat) : Bool :=
  (cp < 0xD800 || (0xDFFF < cp && cp ≤ 0x10FFFF))

/-- Is the code point `cp32` accepted by `reduce` (valid scalar and ASCII)? -/
def reduceCharOk (cp32 : Nat) : Bool := validScalar cp32 && cp32 ≤ 127

/-- The character `reduce` pushes for position `k` (the `as u32` cast
truncates the `u128` code point). -/
def reduceChar (h : Bytes) (s o k : Nat) : Nat := reduceCP h s o k % 2 ^ 32

/-- The loop of `reduce`, producing characters `k, k+1, …` (`m` remaining).
`charset_size = 0` panics at `% charset_size` inside the loop body. -/
def reduceFrom (h : Bytes) (s o k : Nat) : Nat → Except Err Bytes
  | 0 => .ok []
  | m + 1 =>
    if s = 0 then .error .crash
    else
      let c := reduceChar h s o k
      if reduceCharOk c then
        match reduceFrom h s o (k + 1) m with
        | .ok rest => .ok (c :: rest)
        | .error e => .error e
      else .error .unicodeError

/-- `reduce(hash, password_length, charset_size, offset)` of `rainbow.rs`.
The result `String` is represented by its UTF-8 bytes (all ASCII). -/
def reduce (h : Bytes) (pl s o : Nat) : Except Err Bytes :=
  reduceFrom h s o 0 pl

/-- Total description of `reduce`'s output characters (equal to `reduce`'s
value whenever the checks pass; see `reduce_ok_of_ascii`). -/
def reduceA (h : Bytes) (pl s o : Nat) : Bytes :=
  (List.range pl).map (reduceChar h s o)

/-! ### Chain construction (`generate_rainbow_table` in `rainbow.rs`) -/

/-- The per-password chain loop: `num_links` iterations of
`hash := H(current); current := reduce(hash, …)`, returning the final
`current` (the chain end).  `H` is the digest provider for the chosen
algorithm (deterministic collaborator, spec §2). -/
def buildChain (H : Bytes → Bytes) (pl s o : Nat) (cur : Bytes) : Nat → Except Err Bytes
  | 0 => .ok cur
  | m + 1 =>
    match reduce (H cur) pl s o with
    | .ok nxt => buildChain H pl s o nxt m
    | .error e => .error e

/-- The `(start, end)` pair produced for one password. -/
def chainOf (H : Bytes → Bytes) (pl s o n : Nat) (p : Bytes) :
    Except Err (Bytes × Bytes) :=
  match buildChain H pl s o p n with
  | .ok e => .ok (p, e)
  | .error e => .error e

/-- The header byte layout (magic ++ version ++ name-length ++ name ++
pw-length ++ three big-endian `u128` fields).  `pl % 256` is the `as u8`
cast, `· % 2^128` the `u128` values. -/
def headerBytes (alg : Algorithm) (pl s n o : Nat) : Bytes :=
  MAGIC ++ [1] ++ [(alg.toName).length] ++ alg.toName ++ [pl % 256]
    ++ beBytes 16 (s % M128) ++ beBytes 16 (n % M128) ++ beBytes 16 (o % M128)

/-- `write_header`: fails with `InvalidHeader` when `password_length > 255`,
otherwise emits `headerBytes`. -/
def writeHeader (alg : Algorithm) (pl s n o : Nat) : Except Err Bytes :=
  if 255 < pl then .error .invalidHeader
  else .ok (headerBytes alg pl s n o)

/-- `collect::<Result<Vec<_>, _>>()` over the per-password chains: the chain
list in input order, or the first error. -/
def collectChains (H : Bytes → Bytes) (pl s o n : Nat) :
    List Bytes → Except Err (List (Bytes × Bytes))
  | [] => .ok []
  | p :: ps =>
    match chainOf H pl s o n p with
    | .error e => .error e
    | .ok c =>
      match collectChains H pl s o n ps with
      | .error e => .error e
      | .ok cs => .ok (c :: cs)

/-- The pure core of `generate_rainbow_table`: file I/O stripped, the password
list (as read by `read_passwords`) passed directly; the returned bytes are
exactly what the function writes to the output file (header, then each chain's
`start ++ end` in input order — `par_iter().collect()` preserves order). -/
def genTableBytes (H : Bytes → Bytes) (alg : Algorithm) (passwords : List Bytes)
    (n s o : Nat) : Except Err Bytes :=
  if passwords = [] then .error .emptyInput
  else
    let pl := (passwords.headD []).length
    if passwords.all (fun p => p.length = pl) then
      match collectChains H pl s o n passwords with
      | .error e => .error e
      | .ok chains =>
        match writeHeader alg pl s n o with
        | .error e => .error e
        | .ok hdr => .ok (hdr ++ (chains.map (fun c => c.1 ++ c.2)).flatten)
    else .error .varyingLengths

/-! ### Decoding (`parse_rainbow` in `rainbow.rs`)

The Rust code advances an integer `cursor` through `buffer`; the embedding
peels the buffer with `drop`/pattern matching, which is the same data in the
same order.  Every direct index / slice which can fall outside the buffer is
modelled by a `.crash` branch (Rust panics there). -/

/-- Parsed table data: `(algorithm, password_length, num_links, charset_size,
offset, end_map)` — the `RainbowTableData` tuple. -/
abbrev Parsed := Algorithm × Nat × Nat × Nat × Nat × EndMap

/-- `parse_rainbow` on the file contents. -/
def parseRainbow (b : Bytes) : Except Err Parsed :=
  if ¬ MAGIC.isPrefixOf b then .error .invalidMagic
  else
    match b.drop 12 with                     -- cursor = 12
    | [] => .error .crash                    -- buffer[12] out of bounds
    | ver :: r1 =>
      if ver ≠ 1 then .error .invalidHeader
      else
        match r1 with
        | [] => .error .crash                -- buffer[13] out of bounds
        | algLen :: r2 =>
          if r2.length < algLen then .error .crash   -- slice past end
          else
            let algBytes := r2.take algLen
            if ¬ validUtf8 algBytes then .error .invalidAlgorithm
            else
              match r2.drop algLen with
              | [] => .error .crash          -- buffer[14 + alg_len] OOB
              | pl :: r3 =>
                if r3.length < 16 then .error .crash
                else
                  let s := beToNat (r3.take 16)
                  let r4 := r3.drop 16
                  if r4.length < 16 then .error .crash
                  else
                    let n := beToNat (r4.take 16) % 2 ^ 64  -- `as usize`
                    let r5 := r4.drop 16
                    if r5.length < 16 then .error .crash
                    else
                      let o := beToNat (r5.take 16)
                      let r6 := r5.drop 16
                      if pl = 0 then .error .crash   -- chunks(0) panics
                      else
                        let recs := (completeChunks (2 * pl) r6).map
                          (fun c => (c.drop pl, c.take pl))  -- (end, start)
                        match Algorithm.fromName algBytes with
                        | none => .error .invalidAlgorithm
                        | some alg => .ok (alg, pl, n, s, o, buildEndMap recs)

/-- `parse_hash_file`: version byte, algorithm, skipped password-length byte,
then raw digests in `hash_size` chunks; a short final chunk is an
`InvalidHeader` error (unlike the rainbow-table records). -/
def parseHashFile (b : Bytes) : Except Err (Algorithm × List Bytes) :=
  if b.length < 3 then .error .invalidHeader
  else if b.getD 0 0 ≠ 1 then .error .invalidHeader
  else
    let algLen := b.getD 1 0
    if b.length < 2 + algLen then .error .crash      -- slice buffer[2..2+len]
    else
      let algBytes := (b.drop 2).take algLen
      if ¬ validUtf8 algBytes then .error .invalidAlgorithm
      else
        match Algorithm.fromName algBytes with
        | none => .error .invalidAlgorithm
        | some alg =>
          let ds := 2 + algLen + 1                   -- data_start
          if b.length < ds then .error .crash        -- buffer[data_start..]
          else
            let rem := b.drop ds
            -- `chunks(hash_size)` + per-chunk length check: only the final
            -- chunk can be short, so collect = complete chunks, error iff
            -- the remainder does not divide evenly.
            if rem.length % alg.hashSize = 0 then
              .ok (alg, completeChunks alg.hashSize rem)
            else .error .invalidHeader

/-- The hash-file bytes written by `generate_hashes` (`hashing.rs`) for a
digest batch: version 1, name length, name, password-length byte (`as u8`),
then the digests. -/
def hashFileBytes (alg : Algorithm) (plByte : Nat) (digests : List Bytes) : Bytes :=
  [1] ++ [(alg.toName).length] ++ alg.toName ++ [plByte % 256] ++ digests.flatten

/-! ### Cracking (`crack` in `rainbow.rs`) -/

/-- The loop `for _ in 0..i { password = reduce(current)?; current = H(password) }`
applied to the target digest: `i` digest→reduce cycles (reduce first), errors
absorbed as `None`. -/
def advanceHash (H : Bytes → Bytes) (pl s o : Nat) (t : Bytes) : Nat → Option Bytes
  | 0 => some t
  | m + 1 =>
    match advanceHash H pl s o t m with
    | none => none
    | some cur =>
      match reduce cur pl s o with
      | .ok pw => some (H pw)
      | .error _ => none

/-- `regenerate_chain`'s walk: `steps` cycles from `cur`, returning
`(target, current)` at the first cycle whose fresh digest equals the target. -/
def regenLoop (H : Bytes → Bytes) (pl s o : Nat) (t : Bytes) (cur : Bytes) :
    Nat → Except Err (Option (Bytes × Bytes))
  | 0 => .ok none
  | m + 1 =>
    if H cur = t then .ok (some (t, cur))
    else
      match reduce (H cur) pl s o with
      | .ok nxt => regenLoop H pl s o t nxt m
      | .error e => .error e

/-- `regenerate_chain`: `String::from_utf8(start)` first (invalid UTF-8 is a
`UnicodeError`), then the forward walk. -/
def regenerateChain (H : Bytes → Bytes) (pl s o : Nat) (st t : Bytes) (steps : Nat) :
    Except Err (Option (Bytes × Bytes)) :=
  if validUtf8 st then regenLoop H pl s o t st steps else .error .unicodeError

/-- One candidate position `i` of the per-target search in `crack`. -/
def crackStep (H : Bytes → Bytes) (pl n s o : Nat) (m : EndMap) (t : Bytes)
    (i : Nat) : Option (Bytes × Bytes) :=
  match advanceHash H pl s o t i with
  | none => none
  | some cur =>
    match reduce cur pl s o with
    | .error _ => none
    | .ok possibleEnd =>
      match hmGet m possibleEnd with
      | none => none
      | some st =>
        match regenerateChain H pl s o st t (n - i) with
        | .ok (some r) => some r
        | _ => none

/-- `(0..n).find_map f`: first `some` at the smallest index. -/
def findMapRange (f : Nat → Option α) : Nat → Option α
  | 0 => none
  | m + 1 =>
    match findMapRange f m with
    | some r => some r
    | none => f m

/-- The per-target search of `crack` (`(0..num_links).find_map(…)`). -/
def crackOne (H : Bytes → Bytes) (pl n s o : Nat) (m : EndMap) (t : Bytes) :
    Option (Bytes × Bytes) :=
  findMapRange (crackStep H pl n s o m t) n

/-- The pure core of `crack`: parse the table file and the hash file, check
the algorithms match, search each target (order-preserving `filter_map`),
error with `NoPasswordsFound` iff nothing was recovered. -/
def crackBytes (H : Bytes → Bytes) (tableB hashB : Bytes) :
    Except Err (List (Bytes × Bytes)) :=
  match parseRainbow tableB with
  | .error e => .error e
  | .ok (alg, pl, n, s, o, m) =>
    match parseHashFile hashB with
    | .error e => .error e
    | .ok (halg, targets) =>
      if alg ≠ halg then .error .algorithmMismatch
      else
        let res := targets.filterMap (crackOne H pl n s o m)
        if res = [] then .error .noPasswordsFound else .ok res

/-- `dump_rainbow_table`'s pure core: parse (for the header line), then chunk
the bytes after the recomputed header size into `(start, end)` lines, stopping
silently at a short trailing chunk. -/
def dumpRainbow (b : Bytes) :
    Except Err ((Algorithm × Nat × Nat × Nat × Nat) × List (Bytes × Bytes)) :=
  match parseRainbow b with
  | .error e => .error e
  | .ok (alg, pl, n, s, o, _) =>
    let headerSize := 12 + 1 + 1 + (alg.toName).length + 1 + 16 + 16 + 16
    if b.length < headerSize then .error .crash      -- buffer[header_size..]
    else if pl = 0 then .error .crash                -- chunks(0)
    else
      .ok ((alg, pl, n, s, o),
        (completeChunks (2 * pl) (b.drop headerSize)).map
          (fun c => (c.take pl, c.drop pl)))

/-! ### Chain values under total reduction

`chainElemA` is the `k`-th plaintext of the chain from `st` when every
reduction succeeds (which `reduce_ok_of_ascii` guarantees under the ASCII
precondition); `chainElemEx` is the partial variant for arbitrary parameters. -/

/-- `k`-th chain element (total form). -/
def chainElemA (H : Bytes → Bytes) (pl s o : Nat) (st : Bytes) : Nat → Bytes
  | 0 => st
  | k + 1 => reduceA (H (chainElemA H pl s o st k)) pl s o

/-- `k`-th chain element (partial form, `none` once a reduction fails). -/
def chainElemEx (H : Bytes → Bytes) (pl s o : Nat) (st : Bytes) : Nat → Option Bytes
  | 0 => some st
  | k + 1 =>
    match chainElemEx H pl s o st k with
    | none => none
    | some x =>
      match reduce (H x) pl s o with
      | .ok y => some y
      | .error _ => none

/-! ### MD5 (RFC 1321)

Modelled from the spec: the digest provider is an external collaborator
(spec §1, §2 — the `md5` crate is not part of this repository's sources);
MD5 itself is pinned by RFC 1321.  Bytes in, 16 digest bytes out. -/

/-- Little-endian bytes of `v` in width `w`. -/
def leBytes (w v : Nat) : Bytes := (List.range w).map (fun i => v / 256 ^ i % 256)

/-- Rotate a 32-bit word left by `r` (for `x < 2^32`, `0 < r < 32`). -/
def rotl32 (x r : Nat) : Nat := (x * 2 ^ r) % 2 ^ 32 + x / 2 ^ (32 - r)

/-- The 64 MD5 sine constants `K[i]`. -/
def md5K : List Nat :=
  [0xd76aa478, 0xe8c7b756, 0x242070db, 0xc1bdceee,
   0xf57c0faf, 0x4787c62a, 0xa8304613, 0xfd469501,
   0x698098d8, 0x8b44f7af, 0xffff5bb1, 0x895cd7be,
   0x6b901122, 0xfd987193, 0xa679438e, 0x49b40821,
   0xf61e2562, 0xc040b340, 0x265e5a51, 0xe9b6c7aa,
   0xd62f105d, 0x02441453, 0xd8a1e681, 0xe7d3fbc8,
   0x21e1cde6, 0xc33707d6, 0xf4d50d87, 0x455a14ed,
   0xa9e3e905, 0xfcefa3f8, 0x676f02d9, 0x8d2a4c8a,
   0xfffa3942, 0x8771f681, 0x6d9d6122, 0xfde5380c,
   0xa4beea44, 0x4bdecfa9, 0xf6bb4b60, 0xbebfbc70,
   0x289b7ec6, 0xeaa127fa, 0xd4ef3085, 0x04881d05,
   0xd9d4d039, 0xe6db99e5, 0x1fa27cf8, 0xc4ac5665,
   0xf4292244, 0x432aff97, 0xab9423a7, 0xfc93a039,
   0x655b59c3, 0x8f0ccc92, 0xffeff47d, 0x85845dd1,
   0x6fa87e4f, 0xfe2ce6e0, 0xa3014314, 0x4e0811a1,
   0xf7537e82, 0xbd3af235, 0x2ad7d2bb, 0xeb86d391]

/-- The 64 MD5 shift amounts `s[i]`. -/
def md5S : List Nat :=
  [7, 12, 17, 22, 7, 12, 17, 22, 7, 12, 17, 22, 7, 12, 17, 22,
   5, 9, 14, 20, 5, 9, 14, 20, 5, 9, 14, 20, 5, 9, 14, 20,
   4, 11, 16, 23, 4, 11, 16, 23, 4, 11, 16, 23, 4, 11, 16, 23,
   6, 10, 15, 21, 6, 10, 15, 21, 6, 10, 15, 21, 6, 10, 15, 21]

/-- Little-endian 32-bit word `g` of a 64-byte block. -/
def md5Word (blk : Bytes) (g : Nat) : Nat :=
  blk.getD (4 * g) 0 + 256 * blk.getD (4 * g + 1) 0
    + 65536 * blk.getD (4 * g + 2) 0 + 16777216 * blk.getD (4 * g + 3) 0

/-- One of the 64 MD5 operations. -/
def md5Op (blk : Bytes) (st : Nat × Nat × Nat × Nat) (i : Nat) :
    Nat × Nat × Nat × Nat :=
  let (a, b, c, d) := st
  let nb := fun x => x ^^^ 0xFFFFFFFF
  let (f, g) :=
    if i < 16 then ((b &&& c) ||| (nb b &&& d), i)
    else if i < 32 then ((d &&& b) ||| (nb d &&& c), (5 * i + 1) % 16)
    else if i < 48 then (b ^^^ c ^^^ d, (3 * i + 5) % 16)
    else (c ^^^ (b ||| nb d), (7 * i) % 16)
  let f' := (f + a + md5K.getD i 0 + md5Word blk g) % 2 ^ 32
  (d, (b + rotl32 f' (md5S.getD i 0)) % 2 ^ 32, b, c)

/-- Process one 64-byte block. -/
def md5Block (st : Nat × Nat × Nat × Nat) (blk : Bytes) : Nat × Nat × Nat × Nat :=
  let (a, b, c, d) := (List.range 64).foldl (md5Op blk) st
  ((st.1 + a) % 2 ^ 32, (st.2.1 + b) % 2 ^ 32, (st.2.2.1 + c) % 2 ^ 32,
    (st.2.2.2 + d) % 2 ^ 32)

/-- MD5 padding: `0x80`, zeros to 56 mod 64, then the 64-bit little-endian
bit length. -/
def md5Pad (msg : Bytes) : Bytes :=
  let z := (56 + 64 - (msg.length + 1) % 64) % 64
  msg ++ [128] ++ List.replicate z 0 ++ leBytes 8 (msg.length * 8 % 2 ^ 64)

/-- The MD5 digest (16 bytes) of a byte string. -/
def md5Bytes (msg : Bytes) : Bytes :=
  let st := (md5Pad msg |> completeChunks 64).foldl md5Block
    (0x67452301, 0xefcdab89, 0x98badcfe, 0x10325476)
  leBytes 4 st.1 ++ leBytes 4 st.2.1 ++ leBytes 4 st.2.2.1 ++ leBytes 4 st.2.2.2

/-- The wide integer `v` as claim C2 words it: the 4 cyclic digest bytes at
positions `4k .. 4k+3` accumulated by repeated (shift-left-8, add-byte)
starting **from a zero accumulator**.  (`reduce` itself starts from `offset`;
compare `reduceAcc_eq`.) -/
def claimV (h : Bytes) (k : Nat) : Nat :=
  ((cycByte h (4 * k) * 256 + cycByte h (4 * k + 1)) * 256
    + cycByte h (4 * k + 2)) * 256 + cycByte h (4 * k + 3)

/-! ## Reduction-function lemmas -/

theorem accStep_eq (a b : Nat) : accStep a b = (a * 256 + b) % M128 := by
  simp [accStep, Nat.mod_add_mod]

theorem modStep (x c : Nat) :
    (x % M128 * 256 + c) % M128 = (x * 256 + c) % M128 := by
  rw [Nat.add_mod, Nat.mod_mul_mod, ← Nat.add_mod]

set_option maxRecDepth 2000 in
/-- The accumulator of `reduce` is the claim's zero-started 4-byte value
shifted in after the offset: it starts from `offset`, not from zero. -/
theorem reduceAcc_eq (h : Bytes) (o k : Nat) :
    reduceAcc h o k = (o * 2 ^ 32 + claimV h k) % M128 := by
  simp only [reduceAcc, accStep_eq, modStep]
  congr 1
  simp only [claimV]
  ring

theorem le_127_lt_M128 {x : Nat} (hx : x ≤ 127) : x < M128 := by
  have : (128 : Nat) ≤ M128 := by norm_num [M128]
  omega

theorem reduceCP_le {h : Bytes} {s o : Nat} (hs : 0 < s) (hso : o + s ≤ 128)
    (k : Nat) : reduceCP h s o k ≤ 127 := by
  have h1 : reduceAcc h o k % s < s := Nat.mod_lt _ hs
  have h2 : o + reduceAcc h o k % s ≤ 127 := by omega
  unfold reduceCP
  rw [Nat.mod_eq_of_lt (le_127_lt_M128 h2)]
  exact h2

theorem reduceChar_eq_of_ascii {h : Bytes} {s o : Nat} (hs : 0 < s)
    (hso : o + s ≤ 128) (k : Nat) : reduceChar h s o k = reduceCP h s o k := by
  unfold reduceChar
  exact Nat.mod_eq_of_lt (by have := reduceCP_le hs hso (h := h) k; omega)

theorem reduceCharOk_of_le {c : Nat} (hc : c ≤ 127) : reduceCharOk c = true := by
  simp only [reduceCharOk, validScalar, Bool.and_eq_true, Bool.or_eq_true,
    decide_eq_true_eq]
  omega

theorem reduceCharOk_of_ascii {h : Bytes} {s o : Nat} (hs : 0 < s)
    (hso : o + s ≤ 128) (k : Nat) : reduceCharOk (reduceChar h s o k) = true := by
  rw [reduceChar_eq_of_ascii hs hso]
  exact reduceCharOk_of_le (reduceCP_le hs hso k)

theorem reduceFrom_ok_of_ascii {h : Bytes} {s o : Nat} (hs : 0 < s)
    (hso : o + s ≤ 128) :
    ∀ m k, reduceFrom h s o k m = .ok ((List.range' k m).map (reduceChar h s o))
  | 0, _ => rfl
  | m + 1, k => by
    rw [List.range'_succ]
    simp only [reduceFrom, Nat.ne_of_gt hs, if_false,
      reduceCharOk_of_ascii hs hso k, if_true,
      reduceFrom_ok_of_ascii hs hso m (k + 1), List.map_cons]

theorem reduce_ok_of_ascii {h : Bytes} {pl s o : Nat} (hs : 0 < s)
    (hso : o + s ≤ 128) : reduce h pl s o = .ok (reduceA h pl s o) := by
  unfold reduce reduceA
  rw [List.range_eq_range']
  exact reduceFrom_ok_of_ascii hs hso pl 0

theorem reduceA_length (h : Bytes) (pl s o : Nat) :
    (reduceA h pl s o).length = pl := by simp [reduceA]

theorem reduceA_ascii {h : Bytes} {pl s o : Nat} (hs : 0 < s)
    (hso : o + s ≤ 128) : ∀ c ∈ reduceA h pl s o, c ≤ 127 := by
  intro c hc
  simp only [reduceA, List.mem_map] at hc
  obtain ⟨k, -, rfl⟩ := hc
  rw [reduceChar_eq_of_ascii hs hso]
  exact reduceCP_le hs hso k

theorem reduceFrom_ok_eq {h : Bytes} {s o : Nat} :
    ∀ {m k l}, reduceFrom h s o k m = .ok l →
      l = (List.range' k m).map (reduceChar h s o) := by
  intro m
  induction m with
  | zero => intro k l hl; cases hl; rfl
  | succ m ih =>
    intro k l hl
    by_cases hs : s = 0
    · simp [reduceFrom, hs] at hl
    · simp only [reduceFrom, hs, if_false] at hl
      by_cases hok : reduceCharOk (reduceChar h s o k)
      · rw [if_pos hok] at hl
        cases hrec : reduceFrom h s o (k + 1) m with
        | error e => rw [hrec] at hl; cases hl
        | ok rest =>
          rw [hrec] at hl
          cases hl
          rw [List.range'_succ, List.map_cons, ih hrec]
      · rw [if_neg hok] at hl; cases hl

theorem reduce_ok_eq {h : Bytes} {pl s o : Nat} {pw : Bytes}
    (hpw : reduce h pl s o = .ok pw) : pw = reduceA h pl s o := by
  unfold reduce at hpw
  rw [reduceA, List.range_eq_range']
  exact reduceFrom_ok_eq hpw

theorem reduceFrom_error_first_bad {h : Bytes} {s o : Nat} (hs : s ≠ 0) :
    ∀ m k i, i < m → reduceCharOk (reduceChar h s o (k + i)) = false →
      (∀ j < i, reduceCharOk (reduceChar h s o (k + j)) = true) →
      reduceFrom h s o k m = .error .unicodeError := by
  intro m
  induction m with
  | zero => omega
  | succ m ih =>
    intro k i hi hbad hgood
    cases i with
    | zero =>
      simp only [Nat.add_zero] at hbad
      simp [reduceFrom, hs, hbad]
    | succ i' =>
      have h0 : reduceCharOk (reduceChar h s o k) = true := by
        have := hgood 0 (Nat.succ_pos i')
        simpa using this
      have hrec : reduceFrom h s o (k + 1) m = .error .unicodeError := by
        refine ih (k + 1) i' (by omega) ?_ ?_
        · have : k + 1 + i' = k + (i' + 1) := by omega
          rw [this]; exact hbad
        · intro j hj
          have : k + 1 + j = k + (j + 1) := by omega
          rw [this]; exact hgood (j + 1) (by omega)
      simp [reduceFrom, hs, h0, hrec]

theorem reduce_error_first_bad {h : Bytes} {pl s o i : Nat} (hs : 0 < s)
    (hi : i < pl) (hbad : reduceCharOk (reduceChar h s o i) = false)
    (hgood : ∀ j < i, reduceCharOk (reduceChar h s o j) = true) :
    reduce h pl s o = .error .unicodeError := by
  unfold reduce
  refine reduceFrom_error_first_bad (Nat.pos_iff_ne_zero.mp hs) pl 0 i hi ?_ ?_
  · simpa using hbad
  · intro j hj; simpa using hgood j hj

/-! ## Byte-codec helper lemmas -/

theorem beBytes_length (w v : Nat) : (beBytes w v).length = w := by
  induction w generalizing v with
  | zero => rfl
  | succ w ih => simp [beBytes, ih]

theorem beToNat_append_single (xs : Bytes) (b : Nat) :
    beToNat (xs ++ [b]) = beToNat xs * 256 + b := by
  simp [beToNat, List.foldl_append]

theorem beToNat_beBytes {w v : Nat} (hv : v < 256 ^ w) :
    beToNat (beBytes w v) = v := by
  induction w generalizing v with
  | zero =>
    have : v = 0 := by simpa using Nat.lt_one_iff.mp (by simpa using hv)
    simp [this, beBytes, beToNat]
  | succ w ih =>
    have hdiv : v / 256 < 256 ^ w := by
      rw [Nat.div_lt_iff_lt_mul (by norm_num)]
      calc v < 256 ^ (w + 1) := hv
        _ = 256 ^ w * 256 := by ring
    rw [beBytes, beToNat_append_single, ih hdiv]
    omega

theorem chunksAux_stop {sz fuel : Nat} {b : Bytes}
    (h : sz = 0 ∨ b.length < sz) : chunksAux sz fuel b = [] := by
  cases fuel with
  | zero => rfl
  | succ g => rw [chunksAux, if_pos h]

theorem chunksAux_fuel {sz : Nat} :
    ∀ (f1 f2 : Nat) {b : Bytes}, b.length ≤ f1 → b.length ≤ f2 →
      chunksAux sz f1 b = chunksAux sz f2 b := by
  intro f1
  induction f1 with
  | zero =>
    intro f2 b h1 h2
    have hb : b = [] := List.length_eq_zero.mp (by omega)
    rw [hb, chunksAux_stop, chunksAux_stop] <;>
      rcases Nat.eq_zero_or_pos sz with hsz | hsz <;> simp [hsz]
  | succ g ih =>
    intro f2 b h1 h2
    by_cases hstop : sz = 0 ∨ b.length < sz
    · rw [chunksAux_stop hstop, chunksAux_stop hstop]
    · push_neg at hstop
      obtain ⟨hsz, hlen⟩ := hstop
      have hszpos : 0 < sz := Nat.pos_of_ne_zero hsz
      cases f2 with
      | zero => omega
      | succ g2 =>
        rw [chunksAux, chunksAux, if_neg (by omega), if_neg (by omega)]
        have hdrop : (b.drop sz).length = b.length - sz := by simp
        rw [ih g2 (by omega) (by omega)]

theorem completeChunks_nil_of_short {sz : Nat} {b : Bytes} (hb : b.length < sz) :
    completeChunks sz b = [] := chunksAux_stop (Or.inr hb)

theorem completeChunks_block {sz : Nat} (hsz : 0 < sz) {blk : Bytes}
    (rest : Bytes) (hblk : blk.length = sz) :
    completeChunks sz (blk ++ rest) = blk :: completeChunks sz rest := by
  rw [completeChunks]
  have hg1 : (blk ++ rest).length = ((blk ++ rest).length - 1) + 1 := by
    simp only [List.length_append, hblk]
    omega
  have hg2 : rest.length ≤ (blk ++ rest).length - 1 := by
    simp only [List.length_append, hblk]
    omega
  rw [hg1, chunksAux, if_neg (by simp only [List.length_append, hblk]; omega),
    List.take_left' hblk, List.drop_left' hblk, completeChunks]
  rw [chunksAux_fuel _ _ hg2 (Nat.le_refl _)]

theorem completeChunks_flatten {sz : Nat} (hsz : 0 < sz) {blocks : List Bytes}
    {tail : Bytes} (hall : ∀ c ∈ blocks, c.length = sz)
    (ht : tail.length < sz) :
    completeChunks sz (blocks.flatten ++ tail) = blocks := by
  induction blocks with
  | nil => simpa using completeChunks_nil_of_short ht
  | cons blk bs ih =>
    rw [List.flatten_cons, List.append_assoc,
      completeChunks_block hsz _ (hall blk (by simp)),
      ih (fun c hc => hall c (by simp [hc]))]

theorem completeChunks_flatten_nil {sz : Nat} (hsz : 0 < sz)
    {blocks : List Bytes} (hall : ∀ c ∈ blocks, c.length = sz) :
    completeChunks sz blocks.flatten = blocks := by
  have := completeChunks_flatten hsz hall
    (show ([] : Bytes).length < sz by simpa using hsz)
  simpa using this

/-! ## End-map (HashMap) lemmas -/

theorem find?_filter_ne {m : EndMap} {k k' : Bytes} (hne : k' ≠ k) :
    (m.filter (fun p => p.1 ≠ k)).find? (fun p => p.1 = k')
      = m.find? (fun p => p.1 = k') := by
  induction m with
  | nil => rfl
  | cons p ps ih =>
    rw [List.filter_cons]
    by_cases hp : p.1 = k
    · rw [if_neg (by simp [hp]), ih, List.find?_cons]
      have h2 : (decide (p.1 = k')) = false :=
        decide_eq_false (by rw [hp]; exact fun hc => hne hc.symm)
      rw [h2]
    · rw [if_pos (by simp [hp]), List.find?_cons, List.find?_cons]
      cases hd : decide (p.1 = k') with
      | true => rfl
      | false => exact ih

theorem hmGet_hmInsert (m : EndMap) (k v k' : Bytes) :
    hmGet (hmInsert m k v) k' = if k' = k then some v else hmGet m k' := by
  by_cases hk : k' = k
  · simp [hmGet, hmInsert, List.find?_cons, hk]
  · have h2 : (decide (k = k')) = false := by
      simp only [decide_eq_false_iff_not]
      exact fun hc => hk hc.symm
    simp only [hmGet, hmInsert, List.find?_cons, h2, if_neg hk]
    rw [find?_filter_ne hk]

theorem getLast?_mem {l : List α} {a : α} (h : l.getLast? = some a) : a ∈ l := by
  cases hl : l with
  | nil => rw [hl] at h; cases h
  | cons x xs =>
    rw [← hl]
    have hne : l ≠ [] := by rw [hl]; simp
    rw [List.getLast?_eq_getLast l hne] at h
    cases h
    exact List.getLast_mem hne

theorem foldl_insert_get (recs : List (Bytes × Bytes)) :
    ∀ (m : EndMap) (k : Bytes),
      hmGet (recs.foldl (fun m r => hmInsert m r.1 r.2) m) k
        = match (recs.filter (fun r => r.1 = k)).getLast? with
          | some r => some r.2
          | none => hmGet m k := by
  induction recs with
  | nil => intro m k; rfl
  | cons r rs ih =>
    intro m k
    rw [List.foldl_cons, ih]
    by_cases hk : r.1 = k
    · rw [List.filter_cons, if_pos (by simp [hk])]
      cases hlast : (rs.filter (fun r => r.1 = k)).getLast? with
      | some x => simp [List.getLast?_cons, hlast]
      | none =>
        simp only [List.getLast?_cons, hlast, Option.getD_none]
        rw [hmGet_hmInsert, if_pos hk.symm]
    · rw [List.filter_cons, if_neg (by simp [hk])]
      cases hlast : (rs.filter (fun r => r.1 = k)).getLast? with
      | some x => simp [hlast]
      | none =>
        simp only [hlast]
        rw [hmGet_hmInsert, if_neg (fun hc => hk hc.symm)]

/-- The index built by the parse loop answers lookups with the start of the
*last* record (in scan order) whose end equals the key. -/
theorem buildEndMap_lookup (recs : List (Bytes × Bytes)) (k : Bytes) :
    hmGet (buildEndMap recs) k
      = ((recs.filter (fun r => r.1 = k)).getLast?).map (·.2) := by
  rw [buildEndMap, foldl_insert_get]
  cases hlast : (recs.filter (fun r => r.1 = k)).getLast? <;> simp [hmGet]

theorem buildEndMap_mem {recs : List (Bytes × Bytes)} {k v : Bytes}
    (h : hmGet (buildEndMap recs) k = some v) : (k, v) ∈ recs := by
  rw [buildEndMap_lookup] at h
  cases hlast : (recs.filter (fun r => r.1 = k)).getLast? with
  | none => rw [hlast] at h; cases h
  | some r =>
    rw [hlast] at h
    have hr : r ∈ recs.filter (fun r => r.1 = k) := getLast?_mem hlast
    have hkey : r.1 = k := by
      have := List.of_mem_filter hr
      simpa using this
    have hmem : r ∈ recs := List.mem_of_mem_filter hr
    have hv : v = r.2 := by simpa using h.symm
    have : (k, v) = r := by
      cases r with
      | mk a b => simp only at hkey hv; rw [hkey, hv]
    rw [this]; exact hmem

theorem buildEndMap_lookup_distinct {recs : List (Bytes × Bytes)} {k v : Bytes}
    (hdist : (recs.map (·.1)).Pairwise (· ≠ ·)) (hmem : (k, v) ∈ recs) :
    hmGet (buildEndMap recs) k = some v := by
  induction recs with
  | nil => cases hmem
  | cons r rs ih =>
    rw [List.map_cons, List.pairwise_cons] at hdist
    rw [buildEndMap_lookup]
    rcases List.mem_cons.mp hmem with heq | htail
    · have hk : r.1 = k := by rw [← heq]
      have h1 : (decide (r.1 = k)) = true := by simp [hk]
      have hnil : rs.filter (fun r => r.1 = k) = [] := by
        rw [List.filter_eq_nil_iff]
        intro x hx
        have : r.1 ≠ x.1 := hdist.1 x.1 (List.mem_map_of_mem _ hx)
        simp only [decide_eq_true_eq]
        rw [← hk]; exact fun hc => this hc.symm
      simp [List.filter_cons, h1, hnil, ← heq]
    · have hk : r.1 ≠ k := by
        have : k ∈ rs.map (·.1) := by
          have := List.mem_map_of_mem (·.1) htail
          simpa using this
        exact hdist.1 k this
      have h1 : (decide (r.1 = k)) = false := by simp [hk]
      rw [List.filter_cons, if_neg (by simp [h1])]
      rw [buildEndMap_lookup] at ih
      exact ih hdist.2 htail

/-! ## Chain lemmas -/

theorem chainElemA_shift (H : Bytes → Bytes) (pl s o : Nat) (st : Bytes) :
    ∀ k, chainElemA H pl s o st (k + 1)
      = chainElemA H pl s o (reduceA (H st) pl s o) k
  | 0 => rfl
  | k + 1 => by
    show reduceA (H (chainElemA H pl s o st (k + 1))) pl s o = _
    rw [chainElemA_shift H pl s o st k]
    rfl

theorem buildChain_ok {H : Bytes → Bytes} {pl s o : Nat} (hs : 0 < s)
    (hso : o + s ≤ 128) :
    ∀ (n : Nat) (st : Bytes),
      buildChain H pl s o st n = .ok (chainElemA H pl s o st n)
  | 0, _ => rfl
  | n + 1, st => by
    rw [buildChain, reduce_ok_of_ascii hs hso]
    show buildChain H pl s o (reduceA (H st) pl s o) n = _
    rw [buildChain_ok hs hso n (reduceA (H st) pl s o), ← chainElemA_shift]

theorem advanceHash_eq (H : Bytes → Bytes) (pl : Nat) {s o : Nat}
    (hs : 0 < s) (hso : o + s ≤ 128) :
    ∀ (i : Nat) (st : Bytes),
      advanceHash H pl s o (H st) i = some (H (chainElemA H pl s o st i))
  | 0, _ => rfl
  | i + 1, st => by
    rw [advanceHash, advanceHash_eq H pl hs hso i st]
    show (match reduce (H (chainElemA H pl s o st i)) pl s o with
      | .ok pw => some (H pw)
      | .error _ => none) = _
    rw [reduce_ok_of_ascii hs hso]
    rfl

theorem chainElemEx_of_ascii {H : Bytes → Bytes} {pl s o : Nat} (hs : 0 < s)
    (hso : o + s ≤ 128) :
    ∀ (k : Nat) (st : Bytes),
      chainElemEx H pl s o st k = some (chainElemA H pl s o st k)
  | 0, _ => rfl
  | k + 1, st => by
    rw [chainElemEx, chainElemEx_of_ascii hs hso k st]
    show (match reduce (H (chainElemA H pl s o st k)) pl s o with
      | .ok y => some y
      | .error _ => none) = _
    rw [reduce_ok_of_ascii hs hso]
    rfl

theorem chainElemEx_shift (H : Bytes → Bytes) (pl s o : Nat) (st : Bytes) :
    ∀ k, chainElemEx H pl s o st (k + 1)
      = match reduce (H st) pl s o with
        | .ok y => chainElemEx H pl s o y k
        | .error _ => none
  | 0 => by
    show (match chainElemEx H pl s o st 0 with
      | none => none
      | some x => match reduce (H x) pl s o with
        | .ok y => some y
        | .error _ => none) = _
    cases hr : reduce (H st) pl s o <;> simp [chainElemEx, hr]
  | k + 1 => by
    show (match chainElemEx H pl s o st (k + 1) with
      | none => none
      | some x => match reduce (H x) pl s o with
        | .ok y => some y
        | .error _ => none) = _
    rw [chainElemEx_shift H pl s o st k]
    cases hr : reduce (H st) pl s o with
    | ok y =>
      simp only
      cases hk : chainElemEx H pl s o y k <;> simp [chainElemEx, hk]
    | error e => rfl

theorem regenLoop_some {H : Bytes → Bytes} {pl s o : Nat} {t : Bytes} :
    ∀ {m : Nat} {cur : Bytes} {r : Bytes × Bytes},
      regenLoop H pl s o t cur m = .ok (some r) →
      ∃ k, k < m ∧ ∃ z, chainElemEx H pl s o cur k = some z ∧
        r = (t, z) ∧ H z = t := by
  intro m
  induction m with
  | zero => intro cur r h; cases h
  | succ m ih =>
    intro cur r h
    rw [regenLoop] at h
    by_cases hcur : H cur = t
    · rw [if_pos hcur] at h
      cases h
      exact ⟨0, Nat.succ_pos m, cur, rfl, rfl, hcur⟩
    · rw [if_neg hcur] at h
      cases hr : reduce (H cur) pl s o with
      | error e => rw [hr] at h; cases h
      | ok nxt =>
        rw [hr] at h
        obtain ⟨k, hk, z, hz, hrz, hzt⟩ := ih h
        refine ⟨k + 1, by omega, z, ?_, hrz, hzt⟩
        rw [chainElemEx_shift, hr]
        exact hz

theorem regenLoop_some_ascii {H : Bytes → Bytes} {pl s o : Nat} {t : Bytes}
    {m : Nat} {cur : Bytes} {r : Bytes × Bytes} (hs : 0 < s)
    (hso : o + s ≤ 128) (h : regenLoop H pl s o t cur m = .ok (some r)) :
    ∃ k, k < m ∧ r = (t, chainElemA H pl s o cur k) ∧
      H (chainElemA H pl s o cur k) = t := by
  obtain ⟨k, hk, z, hz, hrz, hzt⟩ := regenLoop_some h
  rw [chainElemEx_of_ascii hs hso] at hz
  cases hz
  exact ⟨k, hk, hrz, hzt⟩

/-! ## `find_map` lemmas -/

theorem findMapRange_some {f : Nat → Option α} :
    ∀ {n : Nat} {r : α}, findMapRange f n = some r → ∃ i, i < n ∧ f i = some r := by
  intro n
  induction n with
  | zero => intro r h; cases h
  | succ n ih =>
    intro r h
    rw [findMapRange] at h
    cases hn : findMapRange f n with
    | some r' =>
      rw [hn] at h; cases h
      obtain ⟨i, hi, hf⟩ := ih hn
      exact ⟨i, by omega, hf⟩
    | none =>
      rw [hn] at h
      exact ⟨n, by omega, h⟩

theorem findMapRange_none {f : Nat → Option α} :
    ∀ {n : Nat}, findMapRange f n = none → ∀ i < n, f i = none := by
  intro n
  induction n with
  | zero => intro _ i hi; omega
  | succ n ih =>
    intro h i hi
    rw [findMapRange] at h
    cases hn : findMapRange f n with
    | some r' => rw [hn] at h; cases h
    | none =>
      rw [hn] at h
      rcases Nat.lt_succ_iff_lt_or_eq.mp hi with hlt | heq
      · exact ih hn i hlt
      · rw [heq]; exact h

theorem findMapRange_eq_some {f : Nat → Option α} {n : Nat} {v : α}
    (hex : ∃ i, i < n ∧ f i ≠ none)
    (huniq : ∀ j r, j < n → f j = some r → r = v) :
    findMapRange f n = some v := by
  cases hres : findMapRange f n with
  | some r =>
    obtain ⟨i, hi, hf⟩ := findMapRange_some hres
    rw [huniq i r hi hf] at hres ⊢
  | none =>
    obtain ⟨i, hi, hf⟩ := hex
    exact absurd (findMapRange_none hres i hi) hf

/-! ## Encode/decode lemmas -/

theorem validUtf8_toName (alg : Algorithm) : validUtf8 alg.toName = true := by
  cases alg <;> decide

theorem fromName_toName (alg : Algorithm) : Algorithm.fromName alg.toName = some alg := by
  cases alg <;> decide

theorem magic_isPrefixOf (r : Bytes) : MAGIC.isPrefixOf (MAGIC ++ r) = true := by
  rw [List.isPrefixOf_iff_prefix]
  exact List.prefix_append _ _

theorem magic_drop12 (r : Bytes) : (MAGIC ++ r).drop 12 = r := by
  have h : MAGIC.length = 12 := rfl
  rw [← h, List.drop_left]

/-- Decoding a well-formed header followed by arbitrary chain-record bytes
recovers the header fields and chunks the remainder into the end→start
index. -/
theorem parseRainbow_header (alg : Algorithm) {pl s n o : Nat} (rest : Bytes)
    (hpl0 : 0 < pl) (hpl : pl ≤ 255) (hs : s < 2 ^ 128) (hn : n < 2 ^ 64)
    (ho : o < 2 ^ 128) :
    parseRainbow (headerBytes alg pl s n o ++ rest)
      = .ok (alg, pl, n, s, o,
          buildEndMap ((completeChunks (2 * pl) rest).map
            (fun c => (c.drop pl, c.take pl)))) := by
  have hM : (M128 : Nat) = 2 ^ 128 := rfl
  have hmods : s % M128 = s := Nat.mod_eq_of_lt (hM ▸ hs)
  have hmodn : n % M128 = n := Nat.mod_eq_of_lt (by rw [hM]; exact lt_trans hn (by norm_num))
  have hmodo : o % M128 = o := Nat.mod_eq_of_lt (hM ▸ ho)
  have hmodpl : pl % 256 = pl := Nat.mod_eq_of_lt (by omega)
  have hb : headerBytes alg pl s n o ++ rest
      = MAGIC ++ (1 :: (alg.toName.length :: (alg.toName ++ (pl :: (beBytes 16 s
          ++ (beBytes 16 n ++ (beBytes 16 o ++ rest))))))) := by
    simp [headerBytes, hmods, hmodn, hmodo, hmodpl, List.append_assoc]
  rw [hb, parseRainbow, if_neg (by simp [magic_isPrefixOf]), magic_drop12]
  have hc1 : ¬ ((alg.toName ++ pl :: (beBytes 16 s ++ (beBytes 16 n
      ++ (beBytes 16 o ++ rest)))).length < alg.toName.length) := by
    simp only [List.length_append, List.length_cons]; omega
  have hc2 : ¬ ((beBytes 16 s ++ (beBytes 16 n ++ (beBytes 16 o ++ rest))).length < 16) := by
    simp only [List.length_append, beBytes_length]; omega
  have hc3 : ¬ ((beBytes 16 n ++ (beBytes 16 o ++ rest)).length < 16) := by
    simp only [List.length_append, beBytes_length]; omega
  have hc4 : ¬ ((beBytes 16 o ++ rest).length < 16) := by
    simp only [List.length_append, beBytes_length]; omega
  have h256 : (256 : Nat) ^ 16 = 2 ^ 128 := by norm_num
  have hbs : beToNat (beBytes 16 s) = s := beToNat_beBytes (by omega)
  have hbn : beToNat (beBytes 16 n) = n := beToNat_beBytes (by omega)
  have hbo : beToNat (beBytes 16 o) = o := beToNat_beBytes (by omega)
  have hn64 : n % 2 ^ 64 = n := Nat.mod_eq_of_lt hn
  have hpl0' : ¬ (pl = 0) := by omega
  simp [hc1, hc2, hc3, hc4, hbs, hbn, hbo, hn64, hpl0', validUtf8_toName,
    fromName_toName, List.take_left', List.drop_left', beBytes_length]
  omega

theorem chainElemA_length {H : Bytes → Bytes} {pl s o : Nat} {p : Bytes}
    (hp : p.length = pl) : ∀ k, (chainElemA H pl s o p k).length = pl
  | 0 => hp
  | k + 1 => reduceA_length _ _ _ _

theorem collectChains_ok {H : Bytes → Bytes} {pl s o : Nat} (hs : 0 < s)
    (hso : o + s ≤ 128) (n : Nat) :
    ∀ P : List Bytes, collectChains H pl s o n P
      = .ok (P.map (fun p => (p, chainElemA H pl s o p n)))
  | [] => rfl
  | p :: ps => by
    rw [collectChains, chainOf, buildChain_ok hs hso]
    show (match collectChains H pl s o n ps with
      | Except.error e => Except.error e
      | Except.ok cs => Except.ok ((p, chainElemA H pl s o p n) :: cs))
      = Except.ok ((p :: ps).map (fun p => (p, chainElemA H pl s o p n)))
    rw [collectChains_ok hs hso n ps]
    rfl

/-- Under the ASCII precondition, generation succeeds and produces exactly
the header followed by each chain's `start ++ end`. -/
theorem genTableBytes_ok {H : Bytes → Bytes} (alg : Algorithm)
    {P : List Bytes} {pl : Nat} (n : Nat) {s o : Nat} (hne : P ≠ [])
    (hlen : ∀ p ∈ P, p.length = pl) (hpl : pl ≤ 255) (hs : 0 < s)
    (hso : o + s ≤ 128) :
    genTableBytes H alg P n s o
      = .ok (headerBytes alg pl s n o
          ++ (P.map (fun p => p ++ chainElemA H pl s o p n)).flatten) := by
  cases P with
  | nil => exact absurd rfl hne
  | cons q Ps =>
    have hq : q.length = pl := hlen q (by simp)
    rw [genTableBytes, if_neg (by simp)]
    simp only [List.headD_cons, hq]
    have hall : (q :: Ps).all (fun p => p.length = pl) = true := by
      rw [List.all_eq_true]
      intro p hp
      simpa using hlen p hp
    rw [if_pos hall]
    simp only [collectChains_ok hs hso n, writeHeader,
      if_neg (show ¬ (255 < pl) by omega)]
    rw [List.map_map]
    rfl

/-- Decoding an encoded table: the end→start index is the insertion (in
production order, last-write-wins) of each chain's `(end, start)`. -/
theorem parse_genTableBytes {H : Bytes → Bytes} {alg : Algorithm}
    {P : List Bytes} {pl n s o : Nat} (hne : P ≠ [])
    (hlen : ∀ p ∈ P, p.length = pl) (hpl0 : 0 < pl) (hpl : pl ≤ 255)
    (hn : n < 2 ^ 64) (hs : 0 < s) (hso : o + s ≤ 128) {T : Bytes}
    (hT : genTableBytes H alg P n s o = .ok T) :
    parseRainbow T = .ok (alg, pl, n, s, o,
      buildEndMap (P.map (fun p => (chainElemA H pl s o p n, p)))) := by
  rw [genTableBytes_ok alg n hne hlen hpl hs hso] at hT
  cases hT
  have hs128 : s < 2 ^ 128 := by omega
  have ho128 : o < 2 ^ 128 := by omega
  rw [parseRainbow_header alg _ hpl0 hpl hs128 hn ho128]
  have hblocks : ∀ c ∈ P.map (fun p => p ++ chainElemA H pl s o p n),
      c.length = 2 * pl := by
    intro c hc
    simp only [List.mem_map] at hc
    obtain ⟨p, hp, rfl⟩ := hc
    simp [List.length_append, hlen p hp, chainElemA_length (hlen p hp), Nat.two_mul]
  rw [completeChunks_flatten_nil (by omega) hblocks, List.map_map]
  have hrec : P.map ((fun c => (List.drop pl c, List.take pl c))
      ∘ (fun p => p ++ chainElemA H pl s o p n))
      = P.map (fun p => (chainElemA H pl s o p n, p)) := by
    apply List.map_congr_left
    intro p hp
    simp only [Function.comp_apply]
    rw [List.drop_left' (hlen p hp), List.take_left' (hlen p hp)]
  rw [hrec]

/-! ## Crack lemmas -/

theorem hashSize_pos (alg : Algorithm) : 0 < alg.hashSize := by
  cases alg <;> decide

theorem regenerateChain_some {H : Bytes → Bytes} {pl s o : Nat} {st t : Bytes}
    {steps : Nat} {r : Bytes × Bytes}
    (h : regenerateChain H pl s o st t steps = .ok (some r)) :
    ∃ k, k < steps ∧ ∃ z, chainElemEx H pl s o st k = some z ∧
      r = (t, z) ∧ H z = t := by
  unfold regenerateChain at h
  by_cases hu : validUtf8 st
  · rw [if_pos hu] at h
    exact regenLoop_some h
  · rw [if_neg hu] at h
    cases h

/-- Any pair produced at candidate position `i` carries the target as its
digest, a plaintext whose fresh digest equals the target exactly, and that
plaintext is reached by forward replay from a start recorded in the
end→start index. -/
theorem crackStep_some {H : Bytes → Bytes} {pl n s o : Nat} {m : EndMap}
    {t : Bytes} {i : Nat} {r : Bytes × Bytes}
    (h : crackStep H pl n s o m t i = some r) :
    r.1 = t ∧ H r.2 = t ∧ ∃ st, (∃ e, hmGet m e = some st) ∧
      ∃ k, k < n - i ∧ chainElemEx H pl s o st k = some r.2 := by
  unfold crackStep at h
  split at h
  · cases h
  · split at h
    · cases h
    · split at h
      · cases h
      · split at h
        · rename_i cur hadv pe hred st hget r' hreg
          cases h
          obtain ⟨k, hk, z, hz, hrz, hzt⟩ := regenerateChain_some hreg
          cases hrz
          exact ⟨rfl, hzt, hred, ⟨cur, st⟩, k, hk, hz⟩
        · cases h

theorem crackOne_some {H : Bytes → Bytes} {pl n s o : Nat} {m : EndMap}
    {t : Bytes} {r : Bytes × Bytes}
    (h : crackOne H pl n s o m t = some r) :
    r.1 = t ∧ H r.2 = t ∧ ∃ st, (∃ e, hmGet m e = some st) ∧
      ∃ k, chainElemEx H pl s o st k = some r.2 := by
  obtain ⟨i, -, hstep⟩ := findMapRange_some h
  obtain ⟨h1, h2, st, hst, k, -, hk⟩ := crackStep_some hstep
  exact ⟨h1, h2, st, hst, k, hk⟩

theorem crackBytes_ok_eq {H : Bytes → Bytes} {tB hB : Bytes}
    {res : List (Bytes × Bytes)} {alg halg : Algorithm} {pl n s o : Nat}
    {m : EndMap} {ts : List Bytes}
    (hc : crackBytes H tB hB = .ok res)
    (hR : parseRainbow tB = .ok (alg, pl, n, s, o, m))
    (hH : parseHashFile hB = .ok (halg, ts)) :
    res = ts.filterMap (crackOne H pl n s o m) := by
  unfold crackBytes at hc
  rw [hR, hH] at hc
  by_cases heq : alg ≠ halg
  · simp only [if_pos heq] at hc
    cases hc
  · simp only [if_neg heq] at hc
    by_cases hres : ts.filterMap (crackOne H pl n s o m) = []
    · rw [if_pos hres] at hc; cases hc
    · rw [if_neg hres] at hc; cases hc; rfl

/-- Parsing the hash file written for a single digest of the right size. -/
theorem parseHashFile_single (alg : Algorithm) (plb : Nat) {d : Bytes}
    (hd : d.length = alg.hashSize) :
    parseHashFile (hashFileBytes alg plb [d]) = .ok (alg, [d]) := by
  have hb : hashFileBytes alg plb [d]
      = 1 :: alg.toName.length :: (alg.toName ++ (plb % 256 :: d)) := by
    simp [hashFileBytes]
  have hL3 : 3 ≤ alg.toName.length := by cases alg <;> decide
  rw [hb, parseHashFile]
  rw [if_neg (by simp [List.length_append]; omega)]
  rw [if_neg (by simp)]
  simp only [List.getD_cons_succ, List.getD_cons_zero]
  rw [if_neg (by simp [List.length_append]; omega)]
  have hdrop2 : (1 :: alg.toName.length :: (alg.toName ++ (plb % 256 :: d))).drop 2
      = alg.toName ++ (plb % 256 :: d) := rfl
  rw [hdrop2, List.take_left' rfl]
  rw [if_neg (by simp [validUtf8_toName]), fromName_toName]
  simp only []
  rw [if_neg (by simp [List.length_append]; omega)]
  have hdrop : (1 :: alg.toName.length :: (alg.toName ++ (plb % 256 :: d))).drop
      (2 + alg.toName.length + 1) = d := by
    have h1 : 2 + alg.toName.length + 1 = (alg.toName.length + 1) + 1 + 1 := by omega
    rw [h1, List.drop_succ_cons, List.drop_succ_cons]
    have h2 : alg.toName.length + 1 = alg.toName.length + 1 := rfl
    calc (alg.toName ++ (plb % 256 :: d)).drop (alg.toName.length + 1)
        = (plb % 256 :: d).drop 1 := List.drop_append 1
      _ = d := rfl
  rw [hdrop, hd, Nat.mod_self]
  rw [if_pos rfl]
  have hchunks : completeChunks alg.hashSize d = [d] := by
    have h2 := completeChunks_flatten_nil (hashSize_pos alg)
      (show ∀ c ∈ [d], c.length = alg.hashSize by
        intro c hc
        simp only [List.mem_singleton] at hc
        rw [hc, hd])
    simpa using h2
  rw [hchunks]

/-- The per-target search recovers `(H p, p)` from the index built over the
chains of `P`, provided the chain ends are pairwise distinct (no last-write-wins
eviction) and no other chain element collides with `p` under `H`. -/
theorem crackOne_sound {H : Bytes → Bytes} {pl s o n : Nat} {P : List Bytes}
    {p : Bytes} (hs : 0 < s) (hso : o + s ≤ 128) (hn1 : 1 ≤ n)
    (hp : p ∈ P) (hutf : ∀ q ∈ P, validUtf8 q = true)
    (hdist : (P.map (fun q => chainElemA H pl s o q n)).Pairwise (· ≠ ·))
    (hcoll : ∀ q ∈ P, ∀ k < n + 1,
      H (chainElemA H pl s o q k) = H p → chainElemA H pl s o q k = p) :
    crackOne H pl n s o
      (buildEndMap (P.map (fun q => (chainElemA H pl s o q n, q)))) (H p)
      = some (H p, p) := by
  apply findMapRange_eq_some
  · -- candidate position n - 1 succeeds
    refine ⟨n - 1, by omega, ?_⟩
    have hadv := advanceHash_eq H pl hs hso (n - 1) p
    have hred : reduce (H (chainElemA H pl s o p (n - 1))) pl s o
        = .ok (chainElemA H pl s o p n) := by
      rw [reduce_ok_of_ascii hs hso]
      rw [show n = n - 1 + 1 by omega]
      rfl
    have hget : hmGet (buildEndMap (P.map (fun q => (chainElemA H pl s o q n, q))))
        (chainElemA H pl s o p n) = some p := by
      apply buildEndMap_lookup_distinct
      · rw [List.map_map]
        exact hdist
      · exact List.mem_map_of_mem _ hp
    have hreg : regenerateChain H pl s o p (H p) (n - (n - 1))
        = .ok (some (H p, p)) := by
      rw [show n - (n - 1) = 1 by omega, regenerateChain, if_pos (hutf p hp),
        regenLoop, if_pos rfl]
    have hstep : crackStep H pl n s o
        (buildEndMap (P.map (fun q => (chainElemA H pl s o q n, q))))
        (H p) (n - 1) = some (H p, p) := by
      unfold crackStep
      rw [hadv]
      simp only [hred, hget, hreg]
    simp [hstep]
  · -- every successful position yields exactly (H p, p)
    intro j r hj hstep
    obtain ⟨h1, h2, st, ⟨e, hget⟩, k, hk, hex⟩ := crackStep_some hstep
    obtain ⟨q, hq, hpair⟩ := List.mem_map.mp (buildEndMap_mem hget)
    have hst : st = q := by
      have := congrArg Prod.snd hpair
      simpa using this.symm
    rw [hst, chainElemEx_of_ascii hs hso] at hex
    have hr2 : r.2 = chainElemA H pl s o q k := by
      simpa using hex.symm
    have hkn : k < n + 1 := by omega
    have hr2p : r.2 = p := by
      rw [hr2]
      exact hcoll q hq k hkn (by rw [← hr2]; exact h2)
    exact Prod.ext h1 hr2p

/-- End-to-end soundness (amended): generation succeeds, and cracking the
digest of an in-table password against the generated table file recovers
exactly that password. -/
theorem crack_sound_core {H : Bytes → Bytes} {alg : Algorithm} {P : List Bytes}
    {pl n s o : Nat} {p : Bytes}
    (hp : p ∈ P) (hlen : ∀ q ∈ P, q.length = pl)
    (hpl0 : 0 < pl) (hpl : pl ≤ 255) (hn1 : 1 ≤ n) (hn : n < 2 ^ 64)
    (hs : 0 < s) (hso : o + s ≤ 128)
    (hutf : ∀ q ∈ P, validUtf8 q = true)
    (hHlen : (H p).length = alg.hashSize)
    (hdist : (P.map (fun q => chainElemA H pl s o q n)).Pairwise (· ≠ ·))
    (hcoll : ∀ q ∈ P, ∀ k < n + 1,
      H (chainElemA H pl s o q k) = H p → chainElemA H pl s o q k = p) :
    ∃ T, genTableBytes H alg P n s o = .ok T
      ∧ crackBytes H T (hashFileBytes alg pl [H p]) = .ok [(H p, p)] := by
  have hne : P ≠ [] := by intro hP; rw [hP] at hp; cases hp
  have hT := genTableBytes_ok (H := H) alg n hne hlen hpl hs hso
  have hparse := parse_genTableBytes hne hlen hpl0 hpl hn hs hso hT
  have hhash := parseHashFile_single alg pl (d := H p) hHlen
  have hone := crackOne_sound hs hso hn1 hp hutf hdist hcoll
  refine ⟨_, hT, ?_⟩
  unfold crackBytes
  rw [hparse, hhash]
  simp only [List.filterMap_cons, hone, List.filterMap_nil, if_neg
    (show ¬ (alg ≠ alg) by simp)]
  rw [if_neg (by simp)]

theorem headerBytes_length (alg : Algorithm) (pl s n o : Nat) :
    (headerBytes alg pl s n o).length
      = 12 + 1 + 1 + (alg.toName).length + 1 + 16 + 16 + 16 := by
  simp only [headerBytes, MAGIC, List.length_append, List.length_cons,
    List.length_nil, beBytes_length]

/-- The dump loop over a well-formed header, complete records and a short
trailing fragment: the fragment is silently dropped and every complete record
is printed. -/
theorem dumpRainbow_records (alg : Algorithm) {pl s n o : Nat}
    {chains : List (Bytes × Bytes)} {tail : Bytes}
    (hpl0 : 0 < pl) (hpl : pl ≤ 255) (hs : s < 2 ^ 128) (hn : n < 2 ^ 64)
    (ho : o < 2 ^ 128)
    (hwf : ∀ c ∈ chains, (c : Bytes × Bytes).1.length = pl ∧ c.2.length = pl)
    (ht : tail.length < 2 * pl) :
    dumpRainbow (headerBytes alg pl s n o
        ++ ((chains.map (fun c => c.1 ++ c.2)).flatten ++ tail))
      = .ok ((alg, pl, n, s, o), chains) := by
  have hblocks : ∀ c ∈ chains.map (fun c => c.1 ++ c.2), c.length = 2 * pl := by
    intro c hc
    simp only [List.mem_map] at hc
    obtain ⟨x, hx, rfl⟩ := hc
    simp [List.length_append, (hwf x hx).1, (hwf x hx).2, Nat.two_mul]
  rw [dumpRainbow, parseRainbow_header alg _ hpl0 hpl hs hn ho]
  have hhdr : (headerBytes alg pl s n o).length
      = 12 + 1 + 1 + (alg.toName).length + 1 + 16 + 16 + 16 :=
    headerBytes_length alg pl s n o
  have hlen : ¬ ((headerBytes alg pl s n o
      ++ ((chains.map (fun c => c.1 ++ c.2)).flatten ++ tail)).length
      < 12 + 1 + 1 + (alg.toName).length + 1 + 16 + 16 + 16) := by
    simp only [List.length_append]
    omega
  simp only [hlen, if_false, show ¬ (pl = 0) by omega,
    List.drop_left' hhdr]
  rw [completeChunks_flatten (by omega) hblocks ht, List.map_map]
  have hrec : chains.map ((fun c => (List.take pl c, List.drop pl c))
      ∘ (fun c => c.1 ++ c.2)) = chains := by
    have : chains.map ((fun c => (List.take pl c, List.drop pl c))
        ∘ (fun c => c.1 ++ c.2)) = chains.map (fun c => (c.1, c.2)) := by
      apply List.map_congr_left
      intro c hc
      simp only [Function.comp_apply]
      rw [List.take_left' (hwf c hc).1, List.drop_left' (hwf c hc).1]
    rw [this]
    exact List.map_id chains
  rw [hrec]

/-- Decoding a well-formed header, complete chain records and a (possibly
empty) short trailing fragment: the fragment is dropped and the index is the
insertion of each `(end, start)` in record order. -/
theorem parseRainbow_chains (alg : Algorithm) (tail : Bytes)
    {pl s n o : Nat} {chains : List (Bytes × Bytes)}
    (hpl0 : 0 < pl) (hpl : pl ≤ 255) (hs : s < 2 ^ 128) (hn : n < 2 ^ 64)
    (ho : o < 2 ^ 128)
    (hwf : ∀ c ∈ chains, (c : Bytes × Bytes).1.length = pl ∧ c.2.length = pl)
    (ht : tail.length < 2 * pl) :
    parseRainbow (headerBytes alg pl s n o
        ++ ((chains.map (fun c => c.1 ++ c.2)).flatten ++ tail))
      = .ok (alg, pl, n, s, o,
          buildEndMap (chains.map (fun c => (c.2, c.1)))) := by
  have hblocks : ∀ c ∈ chains.map (fun c => c.1 ++ c.2), c.length = 2 * pl := by
    intro c hc
    simp only [List.mem_map] at hc
    obtain ⟨x, hx, rfl⟩ := hc
    simp [List.length_append, (hwf x hx).1, (hwf x hx).2, Nat.two_mul]
  rw [parseRainbow_header alg _ hpl0 hpl hs hn ho,
    completeChunks_flatten (by omega) hblocks ht, List.map_map]
  have hrec : chains.map ((fun c => (List.drop pl c, List.take pl c))
      ∘ (fun c => c.1 ++ c.2)) = chains.map (fun c => (c.2, c.1)) := by
    apply List.map_congr_left
    intro c hc
    simp only [Function.comp_apply]
    rw [List.drop_left' (hwf c hc).1, List.take_left' (hwf c hc).1]
  rw [hrec]

/-! ## Claim theorems -/

set_option maxRecDepth 40000 in
/-- C1, counterexample: a table generated from P = {"a"} with algorithm MD5,
`num_links = 0`, charset 26 at offset 97 (the ASCII precondition holds), fed
the MD5 digest of "a" as the crack target: the candidate-position scan
`0..num_links` is empty, so crack returns `NoPasswordsFound` — the pair
(digest, "a") is not among the results, refuting soundness as stated. -/
theorem claim_C1_counterexample :
    genTableBytes md5Bytes .md5 [[97]] 0 26 97
        = .ok [114, 97, 105, 110, 98, 111, 119, 116, 97, 98, 108, 101, 1, 3,
            109, 100, 53, 1, 0, 0, 0, 0, 0, 0, 0, 0, 0, 0, 0, 0, 0, 0, 0, 26,
            0, 0, 0, 0, 0, 0, 0, 0, 0, 0, 0, 0, 0, 0, 0, 0, 0, 0, 0, 0, 0, 0,
            0, 0, 0, 0, 0, 0, 0, 0, 0, 97, 97, 97]
    ∧ crackBytes md5Bytes
        [114, 97, 105, 110, 98, 111, 119, 116, 97, 98, 108, 101, 1, 3,
          109, 100, 53, 1, 0, 0, 0, 0, 0, 0, 0, 0, 0, 0, 0, 0, 0, 0, 0, 26,
          0, 0, 0, 0, 0, 0, 0, 0, 0, 0, 0, 0, 0, 0, 0, 0, 0, 0, 0, 0, 0, 0,
          0, 0, 0, 0, 0, 0, 0, 0, 0, 97, 97, 97]
        (hashFileBytes .md5 1 [md5Bytes [97]])
        = .error .noPasswordsFound := by
  constructor
  · rfl
  · rfl

/-- C1, amended: for a table generated from a non-empty uniform-length
password set with `1 ≤ password_length ≤ 255`, `num_links ≥ 1`, the ASCII
charset precondition, pairwise-distinct chain ends (no last-write-wins
eviction) and no digest collision between any chain element and the sought
password, cracking the digest of an in-table password against the generated
table yields exactly the pair (digest, password). -/
theorem claim_C1_amended {H : Bytes → Bytes} {alg : Algorithm} {P : List Bytes}
    {pl n s o : Nat} {p : Bytes}
    (hp : p ∈ P) (hlen : ∀ q ∈ P, q.length = pl)
    (hpl0 : 0 < pl) (hpl : pl ≤ 255) (hn1 : 1 ≤ n) (hn : n < 2 ^ 64)
    (hs : 0 < s) (hso : o + s ≤ 128)
    (hutf : ∀ q ∈ P, validUtf8 q = true)
    (hHlen : (H p).length = alg.hashSize)
    (hdist : (P.map (fun q => chainElemA H pl s o q n)).Pairwise (· ≠ ·))
    (hcoll : ∀ q ∈ P, ∀ k < n + 1,
      H (chainElemA H pl s o q k) = H p → chainElemA H pl s o q k = p) :
    ∃ T res, genTableBytes H alg P n s o = .ok T
      ∧ crackBytes H T (hashFileBytes alg pl [H p]) = .ok res
      ∧ (H p, p) ∈ res := by
  obtain ⟨T, hT, hcb⟩ := crack_sound_core hp hlen hpl0 hpl hn1 hn hs hso hutf
    hHlen hdist hcoll
  exact ⟨T, [(H p, p)], hT, hcb, by simp⟩

/-- C1, witness: P = {"a"}, MD5, `num_links = 1`, charset 26, offset 97; the
distinct-ends and no-collision hypotheses hold concretely (the single chain is
"a" → "l"), and crack recovers (md5("a"), "a"). -/
theorem claim_C1_witness :
    (([[97]].map (fun q => chainElemA md5Bytes 1 26 97 q 1)).Pairwise (· ≠ ·))
    ∧ (∀ q ∈ [[97]], ∀ k < 1 + 1,
        md5Bytes (chainElemA md5Bytes 1 26 97 q k) = md5Bytes [97] →
        chainElemA md5Bytes 1 26 97 q k = [97])
    ∧ ∃ T res, genTableBytes md5Bytes .md5 [[97]] 1 26 97 = .ok T
        ∧ crackBytes md5Bytes T (hashFileBytes .md5 1 [md5Bytes [97]]) = .ok res
        ∧ (md5Bytes [97], [97]) ∈ res :=
  ⟨by decide, by decide,
    claim_C1_amended (p := [97]) (by decide) (by decide) (by decide) (by decide)
      (by decide) (by decide) (by decide) (by decide) (by decide) (by decide)
      (by decide) (by decide)⟩

/-- C3: every pair returned by crack has passed forward verification — its
first component is one of the targets, hashing its plaintext reproduces that
target digest exactly, and the plaintext is reached by forward digest→reduce
replay from a chain start recorded in the end→start index.  Consequently a
target digest with no preimage under the digest function yields no result,
even if its reduction path lands on a recorded chain end. -/
theorem claim_C3_noFalsePositives (H : Bytes → Bytes) (tB hB : Bytes)
    (res : List (Bytes × Bytes)) (alg halg : Algorithm) (pl n s o : Nat)
    (m : EndMap) (ts : List Bytes)
    (hc : crackBytes H tB hB = .ok res)
    (hR : parseRainbow tB = .ok (alg, pl, n, s, o, m))
    (hH : parseHashFile hB = .ok (halg, ts)) :
    (∀ r ∈ res, r.1 ∈ ts ∧ H r.2 = r.1
      ∧ ∃ st, (∃ e, hmGet m e = some st)
        ∧ ∃ k, chainElemEx H pl s o st k = some r.2)
    ∧ ∀ t, (∀ z, H z ≠ t) → ∀ pw, (t, pw) ∉ res := by
  have hres := crackBytes_ok_eq hc hR hH
  have hmain : ∀ r ∈ res, r.1 ∈ ts ∧ H r.2 = r.1
      ∧ ∃ st, (∃ e, hmGet m e = some st)
        ∧ ∃ k, chainElemEx H pl s o st k = some r.2 := by
    intro r hr
    rw [hres] at hr
    obtain ⟨t, ht, hone⟩ := List.mem_filterMap.mp hr
    obtain ⟨h1, h2, hrest⟩ := crackOne_some hone
    refine ⟨by rw [h1]; exact ht, by rw [h1]; exact h2, hrest⟩
  refine ⟨hmain, ?_⟩
  intro t hno pw hmem
  obtain ⟨-, h2, -⟩ := hmain (t, pw) hmem
  exact hno pw h2

/-- C3, witness: the concrete MD5 table for {"a"} with one link; the single
returned pair (md5("a"), "a") satisfies all verification facts. -/
theorem claim_C3_witness :
    crackBytes md5Bytes
        [114, 97, 105, 110, 98, 111, 119, 116, 97, 98, 108, 101, 1, 3,
          109, 100, 53, 1, 0, 0, 0, 0, 0, 0, 0, 0, 0, 0, 0, 0, 0, 0, 0, 26,
          0, 0, 0, 0, 0, 0, 0, 0, 0, 0, 0, 0, 0, 0, 0, 1, 0, 0, 0, 0, 0, 0,
          0, 0, 0, 0, 0, 0, 0, 0, 0, 97, 97, 108]
        [1, 3, 109, 100, 53, 1, 12, 193, 117, 185, 192, 241, 182, 168, 49,
          195, 153, 226, 105, 119, 38, 97]
      = .ok [([12, 193, 117, 185, 192, 241, 182, 168, 49, 195, 153, 226, 105,
          119, 38, 97], [97])]
    ∧ ((∀ r ∈ [(([12, 193, 117, 185, 192, 241, 182, 168, 49, 195, 153, 226,
          105, 119, 38, 97] : Bytes), ([97] : Bytes))],
        r.1 ∈ [([12, 193, 117, 185, 192, 241, 182, 168, 49, 195, 153, 226,
          105, 119, 38, 97] : Bytes)] ∧ md5Bytes r.2 = r.1
        ∧ ∃ st, (∃ e, hmGet [([108], [97])] e = some st)
          ∧ ∃ k, chainElemEx md5Bytes 1 26 97 st k = some r.2)
      ∧ ∀ t, (∀ z, md5Bytes z ≠ t) →
          ∀ pw, (t, pw) ∉ [(([12, 193, 117, 185, 192, 241, 182, 168, 49, 195,
            153, 226, 105, 119, 38, 97] : Bytes), ([97] : Bytes))]) :=
  ⟨by rfl, claim_C3_noFalsePositives md5Bytes
    [114, 97, 105, 110, 98, 111, 119, 116, 97, 98, 108, 101, 1, 3,
      109, 100, 53, 1, 0, 0, 0, 0, 0, 0, 0, 0, 0, 0, 0, 0, 0, 0, 0, 26,
      0, 0, 0, 0, 0, 0, 0, 0, 0, 0, 0, 0, 0, 0, 0, 1, 0, 0, 0, 0, 0, 0,
      0, 0, 0, 0, 0, 0, 0, 0, 0, 97, 97, 108]
    [1, 3, 109, 100, 53, 1, 12, 193, 117, 185, 192, 241, 182, 168, 49,
      195, 153, 226, 105, 119, 38, 97]
    [([12, 193, 117, 185, 192, 241, 182, 168, 49, 195, 153, 226, 105,
      119, 38, 97], [97])]
    .md5 .md5 1 1 26 97 [([108], [97])]
    [[12, 193, 117, 185, 192, 241, 182, 168, 49, 195, 153, 226, 105, 119,
      38, 97]]
    (by rfl) (by rfl) (by rfl)⟩

/-- C4, counterexample: the RainbowTable (MD5, password_length 0, charset 26,
one link, offset 97, one chain ("", "")) has password_length 0 ≤ 255 and
encodes to a header-only file, but decoding it crashes (the `chunks(0)` panic)
instead of yielding the table back. -/
theorem claim_C4_counterexample :
    genTableBytes md5Bytes .md5 [[]] 1 26 97 = .ok (headerBytes .md5 0 26 1 97)
    ∧ parseRainbow (headerBytes .md5 0 26 1 97) = .error .crash := by
  constructor
  · rfl
  · rfl

/-- C4, amended (the claim additionally needs `password_length ≥ 1`): encoding
a table whose chains all have `password_length`-sized sides with the header
writer followed by the chain records, then decoding, recovers the identical
algorithm, password_length, charset_size, num_links and unicode_offset, and
the end→start index built by inserting each chain's `(end, start)` in
production order with last-write-wins. -/
theorem claim_C4_roundTrip {alg : Algorithm} {chains : List (Bytes × Bytes)}
    {pl s n o : Nat}
    (hpl0 : 0 < pl) (hpl : pl ≤ 255) (hs : s < 2 ^ 128) (hn : n < 2 ^ 64)
    (ho : o < 2 ^ 128)
    (hwf : ∀ c ∈ chains, (c : Bytes × Bytes).1.length = pl ∧ c.2.length = pl) :
    ∃ hdr, writeHeader alg pl s n o = .ok hdr
      ∧ parseRainbow (hdr ++ (chains.map (fun c => c.1 ++ c.2)).flatten)
          = .ok (alg, pl, n, s, o,
              buildEndMap (chains.map (fun c => (c.2, c.1)))) := by
  refine ⟨_, by rw [writeHeader, if_neg (by omega)], ?_⟩
  have h := parseRainbow_chains alg [] hpl0 hpl hs hn ho hwf
    (by simpa using hpl0)
  simpa using h

/-- C4, witness: one chain ("a", "b"), password_length 1, charset 26, one
link, offset 97 round-trips. -/
theorem claim_C4_witness :
    (∀ c ∈ [(([97] : Bytes), ([98] : Bytes))],
      (c : Bytes × Bytes).1.length = 1 ∧ c.2.length = 1)
    ∧ ∃ hdr, writeHeader .md5 1 26 1 97 = .ok hdr
      ∧ parseRainbow (hdr
          ++ ([(([97] : Bytes), ([98] : Bytes))].map (fun c => c.1 ++ c.2)).flatten)
          = .ok (.md5, 1, 1, 26, 97,
              buildEndMap ([(([97] : Bytes), ([98] : Bytes))].map
                (fun c => (c.2, c.1)))) :=
  ⟨by decide, claim_C4_roundTrip (by decide) (by decide) (by decide) (by decide)
    (by decide) (by decide)⟩

/-- C7: a final partial record shorter than `2 × password_length` bytes after
a well-formed header and complete chain records is silently dropped by both
the table load and the dump operation: parsing with the fragment equals
parsing without it, both succeed, and dump prints exactly the complete
records. -/
theorem claim_C7_truncatedTail (alg : Algorithm) {pl s n o : Nat}
    {chains : List (Bytes × Bytes)} {tail : Bytes}
    (hpl0 : 0 < pl) (hpl : pl ≤ 255) (hs : s < 2 ^ 128) (hn : n < 2 ^ 64)
    (ho : o < 2 ^ 128)
    (hwf : ∀ c ∈ chains, (c : Bytes × Bytes).1.length = pl ∧ c.2.length = pl)
    (ht : tail.length < 2 * pl) :
    parseRainbow (headerBytes alg pl s n o
        ++ ((chains.map (fun c => c.1 ++ c.2)).flatten ++ tail))
      = parseRainbow (headerBytes alg pl s n o
        ++ (chains.map (fun c => c.1 ++ c.2)).flatten)
    ∧ parseRainbow (headerBytes alg pl s n o
        ++ ((chains.map (fun c => c.1 ++ c.2)).flatten ++ tail))
      = .ok (alg, pl, n, s, o, buildEndMap (chains.map (fun c => (c.2, c.1))))
    ∧ dumpRainbow (headerBytes alg pl s n o
        ++ ((chains.map (fun c => c.1 ++ c.2)).flatten ++ tail))
      = .ok ((alg, pl, n, s, o), chains) := by
  have h1 := parseRainbow_chains alg tail hpl0 hpl hs hn ho hwf ht
  have h2 := parseRainbow_chains alg [] hpl0 hpl hs hn ho hwf
    (by simpa using hpl0)
  refine ⟨?_, h1, dumpRainbow_records alg hpl0 hpl hs hn ho hwf ht⟩
  rw [h1]
  rw [show headerBytes alg pl s n o ++ (chains.map (fun c => c.1 ++ c.2)).flatten
    = headerBytes alg pl s n o
      ++ ((chains.map (fun c => c.1 ++ c.2)).flatten ++ []) by simp, h2]

/-- C7, witness: one complete chain record ("a","b") followed by a 1-byte
fragment is loaded and dumped with the fragment dropped. -/
theorem claim_C7_witness :
    (([5] : Bytes).length < 2 * 1)
    ∧ parseRainbow (headerBytes .md5 1 26 1 97
        ++ (([(([97] : Bytes), ([98] : Bytes))].map
          (fun c => c.1 ++ c.2)).flatten ++ [5]))
      = parseRainbow (headerBytes .md5 1 26 1 97
        ++ ([(([97] : Bytes), ([98] : Bytes))].map (fun c => c.1 ++ c.2)).flatten)
    ∧ parseRainbow (headerBytes .md5 1 26 1 97
        ++ (([(([97] : Bytes), ([98] : Bytes))].map
          (fun c => c.1 ++ c.2)).flatten ++ [5]))
      = .ok (.md5, 1, 1, 26, 97,
          buildEndMap ([(([97] : Bytes), ([98] : Bytes))].map
            (fun c => (c.2, c.1))))
    ∧ dumpRainbow (headerBytes .md5 1 26 1 97
        ++ (([(([97] : Bytes), ([98] : Bytes))].map
          (fun c => c.1 ++ c.2)).flatten ++ [5]))
      = .ok ((.md5, 1, 1, 26, 97), [(([97] : Bytes), ([98] : Bytes))]) :=
  ⟨by decide, (claim_C7_truncatedTail .md5 (by decide) (by decide) (by decide)
      (by decide) (by decide) (by decide) (by decide)).1,
    (claim_C7_truncatedTail .md5 (by decide) (by decide) (by decide)
      (by decide) (by decide) (by decide) (by decide)).2.1,
    (claim_C7_truncatedTail .md5 (by decide) (by decide) (by decide)
      (by decide) (by decide) (by decide) (by decide)).2.2⟩

/-- C2, counterexample: for digest `[0,0,0,0]`, `password_length = 1`,
`charset_size = 3`, `unicode_offset = 1`, `reduce` produces the character with
code point 2, while the claim's formula — offset plus (zero-started 4-byte
accumulator mod charset_size) — gives 1 + (0 mod 3) = 1.  The code's
accumulator starts at the offset, not at zero. -/
theorem claim_C2_counterexample :
    reduce [0, 0, 0, 0] 1 3 1 = .ok [2]
    ∧ 1 + claimV [0, 0, 0, 0] 0 % 3 = 1 ∧ (2 : Nat) ≠ 1 := by decide

/-- C2, amended: for `charset_size > 0`, whenever `reduce` succeeds, its `k`-th
character is the code point
`(offset + (((offset·2^32 + v) mod 2^128) mod charset_size)) mod 2^128 mod 2^32`
where `v` is the claim's zero-started 4-byte value `claimV` — i.e. exactly the
claim's formula except that the shift-add accumulator starts at `offset`
(contributing `offset·2^32`) rather than at zero, and the result wraps at the
`u128` and `u32` boundaries. -/
theorem claim_C2_amended (d : Bytes) (pl s o k : Nat) (pw : Bytes)
    (hs : 0 < s) (hk : k < pl) (hok : reduce d pl s o = .ok pw) :
    pw.getD k 0
      = (o + ((o * 2 ^ 32 + claimV d k) % M128) % s) % M128 % 2 ^ 32 := by
  rw [reduce_ok_eq hok]
  have hchar : (reduceA d pl s o).getD k 0 = reduceChar d s o k := by
    simp [reduceA, List.getD_eq_getElem?_getD, List.getElem?_map,
      List.getElem?_range, hk]
  rw [hchar, reduceChar, reduceCP, reduceAcc_eq]

/-- C2, witness: the amended formula evaluated at digest `[1,2,3,4]`,
`password_length 1`, `charset_size 5`, `offset 2`: the produced character is 4. -/
theorem claim_C2_witness :
    reduce [1, 2, 3, 4] 1 5 2 = .ok [4]
    ∧ ([4] : Bytes).getD 0 0
        = (2 + ((2 * 2 ^ 32 + claimV [1, 2, 3, 4] 0) % M128) % 5) % M128 % 2 ^ 32 :=
  ⟨by decide, claim_C2_amended [1, 2, 3, 4] 1 5 2 0 [4]
    (by decide) (by decide) (by decide)⟩

/-- C5, counterexample: with digest `[]`, `password_length 1`,
`charset_size 1`, `unicode_offset 2^32`, the produced code point is
`2^32 > 127`, yet `reduce` succeeds (returning the NUL character) because the
`as u32` cast truncates the code point to 0 before the validity and ASCII
checks — refuting "when a produced code point exceeds 127 … reduce fails". -/
theorem claim_C5_counterexample :
    reduce [] 1 1 (2 ^ 32) = .ok [0] ∧ 127 < reduceCP [] 1 (2 ^ 32) 0 := by
  decide

/-- C5, amended: for `charset_size > 0`: (a) under the ASCII precondition
`offset + charset_size ≤ 128`, `reduce` succeeds with exactly
`password_length` characters, all ASCII (≤ 127); (b) if the first position
`i` whose code point, truncated to 32 bits by the `as u32` cast, is not a
valid Unicode scalar or exceeds 127 lies below `password_length`, `reduce`
fails with a `UnicodeError` on that character. -/
theorem claim_C5_amended (d : Bytes) (pl s o : Nat) (hs : 0 < s) :
    ((o + s ≤ 128) → reduce d pl s o = .ok (reduceA d pl s o)
      ∧ (reduceA d pl s o).length = pl ∧ ∀ c ∈ reduceA d pl s o, c ≤ 127)
    ∧ (∀ i < pl, reduceCharOk (reduceChar d s o i) = false →
        (∀ j < i, reduceCharOk (reduceChar d s o j) = true) →
        reduce d pl s o = .error .unicodeError) := by
  constructor
  · intro hso
    exact ⟨reduce_ok_of_ascii hs hso, reduceA_length d pl s o,
      reduceA_ascii hs hso⟩
  · intro i hi hbad hgood
    exact reduce_error_first_bad hs hi hbad hgood

/-- C5, witness: the amended statement at digest `[]`, `password_length 1`,
`charset_size 26`, `offset 97` (`0 < 26` discharged). -/
theorem claim_C5_witness :
    (0 : Nat) < 26
    ∧ (((97 : Nat) + 26 ≤ 128) → reduce [] 1 26 97 = .ok (reduceA [] 1 26 97)
        ∧ (reduceA [] 1 26 97).length = 1 ∧ ∀ c ∈ reduceA [] 1 26 97, c ≤ 127)
    ∧ (∀ i < 1, reduceCharOk (reduceChar [] 26 97 i) = false →
        (∀ j < i, reduceCharOk (reduceChar [] 26 97 j) = true) →
        reduce [] 1 26 97 = .error .unicodeError) :=
  ⟨by decide, (claim_C5_amended [] 1 26 97 (by decide)).1,
    (claim_C5_amended [] 1 26 97 (by decide)).2⟩

/-- C6: decoding a buffer that consists of exactly the 12-byte magic word
crashes — the model of the Rust panic at the out-of-bounds `buffer[12]`
index — instead of returning the fatal `InvalidMagic`/`InvalidHeader` error
the spec requires for malformed/truncated headers. -/
theorem claim_C6_crash :
    parseRainbow MAGIC = .error .crash
    ∧ parseRainbow MAGIC ≠ .error .invalidMagic
    ∧ parseRainbow MAGIC ≠ .error .invalidHeader :=
  ⟨rfl, fun h => Err.noConfusion (Except.error.inj h),
    fun h => Err.noConfusion (Except.error.inj h)⟩

/-- C8: the end→start index built by the decode loop maps each end value to
the start of the *last* record in scan order having that end value (so a
later record's start overrides an earlier one's on duplicate ends). -/
theorem claim_C8_lastWriteWins (recs : List (Bytes × Bytes)) (k : Bytes) :
    hmGet (buildEndMap recs) k
      = ((recs.filter (fun r => r.1 = k)).getLast?).map (·.2) := by
  rw [buildEndMap_lookup]

/-- C9: with `num_links = 0` the per-password chain computation returns the
degenerate chain `(p, p)`: the end equals the start and the start is the
original password unchanged (no digest or reduction is ever applied). -/
theorem claim_C9_degenerate (H : Bytes → Bytes) (pl s o : Nat) (p : Bytes) :
    chainOf H pl s o 0 p = .ok (p, p) := rfl

/-- C10: on the empty digest every consumed byte is 0, so for
`charset_size > 0` and `offset + charset_size ≤ 128` the reduction succeeds
and every one of the `password_length` characters equals
`offset + ((offset·2^32 mod 2^128) mod charset_size)`. -/
theorem claim_C10_emptyDigest {pl s o : Nat} (hs : 0 < s)
    (hso : o + s ≤ 128) :
    reduce [] pl s o
      = .ok (List.replicate pl (o + ((o * 2 ^ 32) % M128) % s)) := by
  rw [reduce_ok_of_ascii hs hso]
  congr 1
  rw [reduceA]
  have hchar : ∀ k, reduceChar [] s o k = o + ((o * 2 ^ 32) % M128) % s := by
    intro k
    rw [reduceChar_eq_of_ascii hs hso, reduceCP, reduceAcc_eq]
    have hv : claimV [] k = 0 := by simp [claimV, cycByte]
    rw [hv, Nat.add_zero]
    have hlt : (o * 2 ^ 32) % M128 % s < s := Nat.mod_lt _ hs
    exact Nat.mod_eq_of_lt (le_127_lt_M128 (by omega))
  calc (List.range pl).map (reduceChar [] s o)
      = (List.range pl).map (fun _ => o + ((o * 2 ^ 32) % M128) % s) :=
        List.map_congr_left (fun k _ => hchar k)
    _ = List.replicate pl (o + ((o * 2 ^ 32) % M128) % s) := by
        rw [List.map_const', List.length_range]

/-- C10, witness: at `password_length 2`, `charset_size 26`, `offset 97` the
empty digest reduces to "cc" (code point 99 twice). -/
theorem claim_C10_witness :
    (0 : Nat) < 26 ∧ (97 : Nat) + 26 ≤ 128
    ∧ reduce [] 2 26 97
        = .ok (List.replicate 2 (97 + ((97 * 2 ^ 32) % M128) % 26)) :=
  ⟨by decide, by decide, claim_C10_emptyDigest (by decide) (by decide)⟩

end Hashassin

